import Mathlib

/-!
Verification of the pyepics autosave module
(`Python27/Lib/site-packages/epics/autosave/save_restore.py`).

The Python functions `restore_pvs`, `save_pvs` and `_parse_request_file`
are embedded as pure Lean functions over `List Char` (Python strings),
association lists (Python dicts, with a fixed iteration order standing in
for CPython's hash order) and an explicit environment describing the
behaviour of the external Channel Access layer (the `epics.pv.PV` class).
File contents are plain character lists; the file system seen by the
request-file parser is a partial map from path to parsed line list.
-/

set_option maxRecDepth 20000

/-- Characters of a Lean string literal, used to write Python string
literals from the source as `List Char` values. -/
def chars (s : String) : List Char := s.data

/-- Python `unicode.isspace` set as used by `str.strip` / `str.split`:
space, tab, newline, carriage return, vertical tab, form feed. -/
def isWS (c : Char) : Bool :=
  c == ' ' || c == '\t' || c == '\n' || c == '\r' || c == '\x0b' || c == '\x0c'

/-- Boolean prefix test on character lists (`str.startswith`). -/
def isPfx : List Char → List Char → Bool
  | [], _ => true
  | _ :: _, [] => false
  | c :: p, d :: s => c == d && isPfx p s

/-- Boolean suffix test on character lists (`str.endswith`). -/
def isSfx (pat s : List Char) : Bool := isPfx pat.reverse s.reverse

/-- Boolean substring test: some suffix of `s` starts with `pat`. -/
def containsSub : List Char → List Char → Bool
  | [], pat => isPfx pat []
  | s@(_ :: rest), pat => isPfx pat s || containsSub rest pat

/-- Fuelled worker for `replaceAll`; the fuel is an upper bound on the
number of scan steps and is consumed once per step. -/
def replAux (pat repl : List Char) : Nat → List Char → List Char
  | _, [] => []
  | 0, s => s
  | fuel + 1, c :: rest =>
    if isPfx pat (c :: rest) then repl ++ replAux pat repl fuel ((c :: rest).drop pat.length)
    else c :: replAux pat repl fuel rest

/-- Python `s.replace(pat, repl)` for a non-empty pattern: replace every
non-overlapping occurrence of `pat` in `s`, scanning left to right.
`s.length` steps of fuel always suffice because every step consumes at
least one character of `s`. -/
def replaceAll (s pat repl : List Char) : List Char := replAux pat repl s.length s

/-- Python `s.lstrip()` (whitespace). -/
def lstripWS (s : List Char) : List Char := s.dropWhile isWS

/-- Python `s.strip()` (whitespace on both ends). -/
def pyStrip (s : List Char) : List Char := ((s.dropWhile isWS).reverse.dropWhile isWS).reverse

/-- Python `line[:-1].split(' ', 1)` followed by the 2-tuple unpacking and
`strip` of each part, as performed by `restore_pvs` on a data line:
`pvname, value = [w.strip() for w in line[:-1].split(' ', 1)]`.
`none` models the uncaught `ValueError` raised by the unpacking when the
line (with its final character removed) contains no space. -/
def parseSavLine (line : List Char) : Option (List Char × List Char) :=
  if ' ' ∈ line.dropLast then
    some (pyStrip (line.dropLast.takeWhile (fun c => c ≠ ' ')),
          pyStrip ((line.dropLast.dropWhile (fun c => c ≠ ' ')).tail))
  else none

/-! ### JSON values

Modelled from the spec: the Python `json` module used by the source is a
library of this repository that is not under `src/`; per the spec the save
format stores "a JSON-encoded array of the elements" of a numeric array,
so `dumps`/`loads` below implement JSON for integers and flat integer
arrays (`json.dumps(list)` with the default `', '` separator, and
`json.loads` accepting optional whitespace and rejecting everything
outside this fragment, mirroring the `ValueError` that aborts a restore).
-/

/-- JSON value fragment produced by `json.loads` on save-file payloads. -/
inductive JVal where
  | jint : Int → JVal
  | jlist : List Int → JVal
deriving DecidableEq

/-- Decimal digit to character. -/
def digitChar (n : Nat) : Char := Char.ofNat (48 + n)

/-- Character to decimal digit value. -/
def digitVal (c : Char) : Nat := c.toNat - 48

/-- Decimal digit test (`'0' ≤ c ≤ '9'`). -/
def isDigit (c : Char) : Bool := 48 ≤ c.toNat && c.toNat ≤ 57

/-- Fuelled most-significant-first decimal digits of a natural number. -/
def natDigitsAux : Nat → Nat → List Char
  | 0, _ => []
  | fuel + 1, n =>
    if n < 10 then [digitChar n]
    else natDigitsAux fuel (n / 10) ++ [digitChar (n % 10)]

/-- Decimal representation of a natural number (`repr` of a Python int). -/
def natChars (n : Nat) : List Char := natDigitsAux (n + 1) n

/-- Decimal representation of an integer (`repr` of a Python int). -/
def intChars (i : Int) : List Char :=
  if i < 0 then '-' :: natChars i.natAbs else natChars i.natAbs

/-- Separator-interleaved concatenation (`sep.join`-like, over lists). -/
def icatL (sep : List Char) : List (List Char) → List Char
  | [] => []
  | [s] => s
  | s :: s2 :: rest => s ++ sep ++ icatL sep (s2 :: rest)

/-- `json.dumps` of a list of integers: `'[' + ', '.join(...) + ']'`. -/
def dumps (xs : List Int) : List Char := '[' :: icatL (chars ", ") (xs.map intChars) ++ [']']

/-- Horner accumulation of decimal digit characters. -/
def foldDigits : Nat → List Char → Nat
  | acc, [] => acc
  | acc, c :: rest => foldDigits (acc * 10 + digitVal c) rest

/-- Parse a JSON natural number literal at the head of the input,
returning the value and the unconsumed rest; rejects a leading zero
followed by more digits, as JSON does. -/
def parseNat (s : List Char) : Option (Nat × List Char) :=
  match s with
  | [] => none
  | c :: t =>
    if isDigit c then
      if c = '0' ∧ ((c :: t).takeWhile isDigit).length ≠ 1 then none
      else some (foldDigits 0 ((c :: t).takeWhile isDigit), (c :: t).dropWhile isDigit)
    else none

/-- Parse a JSON integer literal (optional leading minus). -/
def parseInt (s : List Char) : Option (Int × List Char) :=
  match s with
  | [] => none
  | c :: rest =>
    if c = '-' then (parseNat rest).map (fun p => (-(p.1 : Int), p.2))
    else (parseNat (c :: rest)).map (fun p => ((p.1 : Int), p.2))

/-- Skip JSON insignificant whitespace. -/
def skipWS (s : List Char) : List Char := s.dropWhile isWS

/-- Parse the comma-separated items of a non-empty JSON integer array,
up to and including the closing bracket; fuel bounds the item count. -/
def parseItemsLoop : Nat → List Char → Option (List Int × List Char)
  | 0, _ => none
  | fuel + 1, r =>
    match parseInt r with
    | none => none
    | some (i, r2) =>
      let r3 := skipWS r2
      if r3.head? = some ']' then some ([i], r3.tail)
      else if r3.head? = some ',' then
        match parseItemsLoop fuel (skipWS r3.tail) with
        | some (xs, r5) => some (i :: xs, r5)
        | none => none
      else none

/-- Parse the body of a JSON array after the opening bracket. -/
def parseElems (fuel : Nat) (r : List Char) : Option (List Int × List Char) :=
  if (skipWS r).head? = some ']' then some ([], (skipWS r).tail)
  else parseItemsLoop fuel (skipWS r)

/-- Dispatch of `loads` on the first significant character. -/
def loadsCore (fuel : Nat) (t : List Char) : Option JVal :=
  match t with
  | '[' :: rest =>
    match parseElems fuel rest with
    | some (xs, r) => if skipWS r = [] then some (JVal.jlist xs) else none
    | none => none
  | _ =>
    match parseInt t with
    | some (i, r) => if skipWS r = [] then some (JVal.jint i) else none
    | none => none

/-- `json.loads` on the integer / integer-array fragment; `none` models
the `ValueError` raised on any other input. -/
def loads (s : List Char) : Option JVal := loadsCore (s.length + 1) (skipWS s)

/-! ### Restore (`restore_pvs`) -/

/-- Decoded value put to a PV: a plain string, or the result of
`json.loads` on an array payload. -/
inductive RVal where
  | rstr : List Char → RVal
  | rjson : JVal → RVal
deriving DecidableEq

/-- The legacy prefix literal `'<JSON>:'`. -/
def jsonTag : List Char := chars "<JSON>:"

/-- The array prefix literal `'@array@'`. -/
def arrTag : List Char := chars "@array@"

/-- First decoding step of `restore_pvs`:
`if value.startswith('<JSON>:'): value = value.replace('<JSON>:', '@array@')`. -/
def normalizeLegacy (value : List Char) : List Char :=
  if isPfx jsonTag value then replaceAll value jsonTag arrTag else value

/-- Brace stripping of `restore_pvs`:
`if value.startswith('\x7b') and value.endswith('\x7d'): value = value[1:-1]`. -/
def braceStrip (v2 : List Char) : List Char :=
  if isPfx ['\x7b'] v2 && isSfx ['\x7d'] v2 then (v2.drop 1).dropLast else v2

/-- Second decoding step of `restore_pvs`: on an `@array@` value, strip
all `'@array@'` occurrences (`str.replace`), `strip()`, strip one brace
pair, and `json.loads` the rest; otherwise keep the plain string.
`none` models the uncaught `ValueError` from `json.loads`. -/
def decodeStage2 (v1 : List Char) : Option RVal :=
  if isPfx arrTag v1 then
    (loads (braceStrip (pyStrip (replaceAll v1 arrTag [])))).map RVal.rjson
  else some (RVal.rstr v1)

/-- Value decoding performed by `restore_pvs` on the value token of a
save-file line (source lines 52–59). -/
def decodeValue (value : List Char) : Option RVal := decodeStage2 (normalizeLegacy value)

/-- Behaviour of the Channel Access layer for one PV during restore:
the PV fails to connect, connects without write access, connects and
accepts the put, or raises from inside the `try` block. -/
inductive PVBehavior where
  | cannotConnect
  | noWriteAccess
  | writable
  | throws
deriving DecidableEq

/-- Observable per-PV outcomes of a restore, in processing order: a
`put(value, wait=False)` issued, or a printed connectivity/permission
diagnostic. -/
inductive REvent where
  | put : List Char → RVal → REvent
  | cannotConnect : List Char → REvent
  | noWriteAccess : List Char → REvent
deriving DecidableEq

/-- Python `file.readlines()`: split into lines, each keeping its
trailing newline; a last line without a newline is kept as is. -/
def readlinesAux : List Char → List Char → List (List Char)
  | [], acc => if acc = [] then [] else [acc.reverse]
  | c :: rest, acc =>
    if c = '\n' then (acc.reverse ++ ['\n']) :: readlinesAux rest []
    else readlinesAux rest (c :: acc)

/-- Python `file.readlines()` on a whole file content. -/
def readlines (s : List Char) : List (List Char) := readlinesAux s []

/-- Main loop of `restore_pvs` over the lines of the save file, carrying
the `success` flag. The first component is `some success` on normal
return and `none` when an uncaught exception aborts the call: the
`ValueError` from the name/value unpacking, the `ValueError` from
`json.loads`, or — in the `except` branch — the `TypeError` raised by the
diagnostic `print`, whose format string has three `%s` placeholders but
is given a four-element tuple, so `success = False` is never reached.
The second component lists the per-PV events in order. -/
def restoreLoop (env : List Char → PVBehavior) :
    List (List Char) → Bool → Option Bool × List REvent
  | [], success => (some success, [])
  | line :: rest, success =>
    if isPfx (chars "<END") line then (some success, [])
    else if isPfx (chars "#") line then restoreLoop env rest success
    else
      match parseSavLine line with
      | none => (none, [])
      | some (pvname, value) =>
        match decodeValue value with
        | none => (none, [])
        | some v =>
          match env pvname with
          | PVBehavior.cannotConnect =>
            let r := restoreLoop env rest success
            (r.1, REvent.cannotConnect pvname :: r.2)
          | PVBehavior.noWriteAccess =>
            let r := restoreLoop env rest success
            (r.1, REvent.noWriteAccess pvname :: r.2)
          | PVBehavior.writable =>
            let r := restoreLoop env rest success
            (r.1, REvent.put pvname v :: r.2)
          | PVBehavior.throws => (none, [])

/-- `restore_pvs(filepath)` with the file content given directly and the
Channel Access layer abstracted by `env`; `success` starts `True`. -/
def restore_pvs (env : List Char → PVBehavior) (content : List Char) :
    Option Bool × List REvent :=
  restoreLoop env (readlines content) true

/-! ### Save (`save_pvs`) -/

/-- Connected value of a PV as seen by `save_pvs`: a single-element value
(`count == 1`, saved as `str(pv.get())`), a multi-element char array
(saved as `pv.get(as_string=True)`), or a multi-element numeric array
(saved as `'@array@ ' + json.dumps(pv.get().tolist())`). -/
inductive SValue where
  | scalar : List Char → SValue
  | charArr : List Char → SValue
  | numArr : List Int → SValue
deriving DecidableEq

/-- Per-PV value encoding of `save_pvs` (source lines 96–101). -/
def encodeSVal : SValue → List Char
  | SValue.scalar s => s
  | SValue.charArr s => s
  | SValue.numArr xs => arrTag ++ ' ' :: dumps xs

/-- The diagnostic printed by `save_pvs` for an unconnectable PV. -/
def cannotMsg (n : List Char) : List Char := chars "Cannot connect to " ++ n

/-- Loop of `save_pvs` over the resolved PV names: PVs whose environment
entry is `none` fail to connect and are skipped with a diagnostic, the
others contribute a `(pvname, value)` pair, in order. -/
def collectVals (env : List Char → Option SValue) :
    List (List Char) → List (List Char) × List (List Char × List Char)
  | [] => ([], [])
  | n :: rest =>
    match env n with
    | none => (cannotMsg n :: (collectVals env rest).1, (collectVals env rest).2)
    | some sv => ((collectVals env rest).1, (n, encodeSVal sv) :: (collectVals env rest).2)

/-- One `"%s %s\n" % (name, value)` save-file data line. -/
def savLine (n v : List Char) : List Char := n ++ ' ' :: (v ++ ['\n'])

/-- The file written by `save_pvs`: timestamp header comment, caution
header comment, one data line per pair, and the `<END>` terminator. -/
def saveContent (ts : List Char) (vals : List (List Char × List Char)) : List Char :=
  chars "# File saved by pyepics autosave.save_pvs() on " ++ ts ++ chars "\n" ++
  chars "# Edit with extreme care.\n" ++
  (vals.map (fun p => savLine p.1 p.2)).foldr (· ++ ·) [] ++
  chars "<END>\n"

/-! ### Request-file parsing (`_parse_request_file`)

Modelled from the spec: the tokenisation itself is done by the external
`pyparsing` package (a library of this repository that is not under
`src/`), so a request file is modelled directly as the list of its
logical lines per the spec's line grammar — comment lines, blank lines,
single PV-token lines, and `file` include lines with their `NAME=VALUE`
macro assignments. `astOf` yields the per-line AST entries that
`_parse_request_file` walks (comments and blank lines contribute no
entry, matching the `len(x) > 0` filter on the parse result).
-/

/-- One logical line of a request file. -/
inductive Line where
  | commentLine : Line
  | blankLine : Line
  | pvLine : List Char → Line
  | fileLine : List Char → List (List Char × List Char) → Line
deriving DecidableEq

/-- One AST entry walked by `_parse_request_file`. -/
inductive Entry where
  | pvE : List Char → Entry
  | fileE : List Char → List (List Char × List Char) → Entry
deriving DecidableEq

/-- AST entries of a parsed request file, in line order. -/
def astOf (lines : List Line) : List Entry :=
  lines.filterMap fun l =>
    match l with
    | Line.pvLine t => some (Entry.pvE t)
    | Line.fileLine p ms => some (Entry.fileE p ms)
    | _ => none

/-- A macro scope: Python dict from macro name to replacement, as an
association list in iteration order (first binding of a key wins on
lookup; CPython 2.7 iteration order is unspecified, the list order
stands in for it). -/
abbrev Scope := List (List Char × List Char)

/-- Dict lookup: value of the first binding of `key`. -/
def lookupS : Scope → List Char → Option (List Char)
  | [], _ => none
  | (k, v) :: rest, key => if k = key then some v else lookupS rest key

/-- Python `base.copy()` followed by `.update(upd)`: bindings of `upd`
replace same-key bindings of `base` in place, new keys are appended. -/
def dictUpdate (base upd : Scope) : Scope :=
  (base.map fun kv => (kv.1, (lookupS upd kv.1).getD kv.2)) ++
  upd.filter fun kv => (lookupS base kv.1).isNone

/-- Python `dict(pairs)`: later bindings of the same key win. -/
def dictOfPairs (l : List (List Char × List Char)) : Scope :=
  l.foldl (fun d kv => dictUpdate d [kv]) []

/-- Macro expansion of one PV name (source lines 131–133):
`for m, v in macro_values.items(): pvname = pvname.replace("$(%s)" % m, v)`,
a sequential replace-all per binding in iteration order. -/
def expandMacros (scope : Scope) (n : List Char) : List Char :=
  scope.foldl (fun s kv => replaceAll s (chars "$(" ++ kv.1 ++ chars ")") kv.2) n

/-! Modelled from the spec: `os.path.dirname`, `os.path.join` and
`os.path.normpath` live in the Python standard library of this
repository, not under `src/`; they are modelled here with the
`'/'`-separated path semantics of the spec's include-resolution example
(`a/req.req` + `sub/b.req` ↦ `a/sub/b.req`). -/

/-- Python `s.split(sep)` for a one-character separator. -/
def splitSep (sep : Char) : List Char → List (List Char)
  | [] => [[]]
  | c :: rest =>
    let r := splitSep sep rest
    if c = sep then [] :: r
    else
      match r with
      | h :: t => (c :: h) :: t
      | [] => [[c]]

/-- `'/'.join(comps)`. -/
def joinSlash : List (List Char) → List Char
  | [] => []
  | [x] => x
  | x :: y :: t => x ++ '/' :: joinSlash (y :: t)

/-- Modelled from the spec: `os.path.dirname` — everything before the
last `'/'`, with trailing slashes stripped unless the head is all
slashes. -/
def dirname (p : List Char) : List Char :=
  let afterLen := (p.reverse.takeWhile (fun c => c ≠ '/')).length
  let head := p.take (p.length - afterLen)
  if head ≠ [] ∧ ¬ head.all (fun c => c = '/') then
    (head.reverse.dropWhile (fun c => c = '/')).reverse
  else head

/-- Modelled from the spec: `os.path.join` for two components — an
absolute second component replaces the first, otherwise the components
are joined with a single `'/'`. -/
def joinP (a b : List Char) : List Char :=
  if isPfx ['/'] b then b
  else if a = [] ∨ isSfx ['/'] a then a ++ b
  else a ++ '/' :: b

/-- Modelled from the spec: `os.path.normpath` — collapse `''` and `'.'`
components, resolve `'..'` where possible, preserve leading slashes. -/
def normpath (p : List Char) : List Char :=
  if p = [] then chars "."
  else
    let initialSlashes : Nat :=
      if isPfx (chars "//") p ∧ ¬ isPfx (chars "///") p then 2
      else if isPfx ['/'] p then 1 else 0
    let comps := splitSep '/' p
    let newComps := comps.foldl (fun acc comp =>
      if comp = [] ∨ comp = chars "." then acc
      else if comp ≠ chars ".."
              ∨ (initialSlashes = 0 ∧ acc = [])
              ∨ (acc ≠ [] ∧ acc.getLast? = some (chars "..")) then acc ++ [comp]
      else if acc ≠ [] then acc.dropLast
      else acc) []
    let res := List.replicate initialSlashes '/' ++ joinSlash newComps
    if res = [] then chars "." else res

/-- Include-path resolution of `_parse_request_file` (source line 137):
`os.path.normpath(os.path.join(os.path.dirname(request_file), subfile))`.
It is a function of the including file's path and the include path only —
the process working directory is not an input. -/
def resolveIncludePath (requestFile subfile : List Char) : List Char :=
  normpath (joinP (dirname requestFile) subfile)

/-- The file system seen by the parser: path to parsed request lines,
`none` when opening the file raises (which aborts the parse). -/
abbrev FS := List Char → Option (List Line)

/-- Walk of the AST entries of one request file (source lines 126–143):
a PV entry contributes its macro-expanded name; a `file` entry resolves
the include path, merges the include's assignments over a copy of the
inherited scope, recursively parses the included file, and splices its
result before the rest. Fuel is consumed once per step and once per
include descent; `none` models a raised exception (file open failure)
or fuel exhaustion (the source recurses unboundedly on include cycles). -/
def parseEntriesF (fs : FS) : Nat → List Char → Scope → List Entry → Option (List (List Char))
  | _, _, _, [] => some []
  | 0, _, _, _ :: _ => none
  | fuel + 1, path, scope, Entry.pvE n :: rest =>
    (parseEntriesF fs fuel path scope rest).map (expandMacros scope n :: ·)
  | fuel + 1, path, scope, Entry.fileE sub ms :: rest =>
    match fs (resolveIncludePath path sub) with
    | none => none
    | some ls =>
      match parseEntriesF fs fuel (resolveIncludePath path sub)
              (dictUpdate scope (dictOfPairs ms)) (astOf ls),
            parseEntriesF fs fuel path scope rest with
      | some a, some b => some (a ++ b)
      | _, _ => none

/-- `_parse_request_file(request_file, macro_values)`: parse the file
into AST entries and walk them. -/
def parseReqF (fs : FS) (fuel : Nat) (path : List Char) (scope : Scope) :
    Option (List (List Char)) :=
  match fs path with
  | none => none
  | some lines => parseEntriesF fs fuel path scope (astOf lines)

/-- `save_pvs(request_file, save_pvs_path)`: resolve the PV list with the
default empty macro scope, collect values and diagnostics, and produce
the written file content (`ts` is the `datetime.now().isoformat()`
timestamp). `none` models a parse failure propagating to the caller. -/
def save_pvs (fs : FS) (fuel : Nat) (requestFile : List Char)
    (env : List Char → Option SValue) (ts : List Char) :
    Option (List (List Char) × List Char) :=
  match parseReqF fs fuel requestFile [] with
  | none => none
  | some pvs => some ((collectVals env pvs).1, saveContent ts (collectVals env pvs).2)

/-- True when the input does not start with a decimal digit, so that a
digit parse stops exactly there. -/
def notDigitStart : List Char → Bool
  | [] => true
  | c :: _ => !isDigit c

/-- PV tokens of a request file's lines, in file order, comments and
blank lines removed. -/
def pvTokens (lines : List Line) : List (List Char) :=
  lines.filterMap fun l =>
    match l with
    | Line.pvLine t => some t
    | _ => none

/-- True when a request file contains no `file` include line. -/
def noInclude (lines : List Line) : Bool :=
  lines.all fun l =>
    match l with
    | Line.fileLine _ _ => false
    | _ => true

/-- Name/value extraction and value decoding applied by `restore_pvs` to
one save-file data line. -/
def decodeSavedLine (line : List Char) : Option (List Char × RVal) :=
  match parseSavLine line with
  | none => none
  | some (n, v) => (decodeValue v).map fun d => (n, d)

/-! ### Concrete fixtures used by the claim theorems and witnesses -/

/-- Environment where `A` fails to connect, `B` has no write access and
every other PV is writable. -/
def envC1 : List Char → PVBehavior := fun n =>
  if n = chars "A" then PVBehavior.cannotConnect
  else if n = chars "B" then PVBehavior.noWriteAccess
  else PVBehavior.writable

/-- Environment where every PV is connected and writable. -/
def envW : List Char → PVBehavior := fun _ => PVBehavior.writable

/-- Save environment for the C3 witness: `P1` is a connected scalar,
`P2` cannot connect. -/
def envC3 : List Char → Option SValue := fun n =>
  if n = chars "P1" then some (SValue.scalar (chars "5")) else none

/-- Request-file fixture for the C3 witness. -/
def fsC3 : FS := fun p =>
  if p = chars "q.req" then some [Line.pvLine (chars "P1"), Line.pvLine (chars "P2")]
  else none

/-- Request-file fixture for C5: `a/req.req` includes `sub/b.req`. -/
def fsC5 : FS := fun p =>
  if p = chars "a/req.req" then some [Line.fileLine (chars "sub/b.req") []]
  else if p = chars "a/sub/b.req" then some [Line.pvLine (chars "PV:X")]
  else none

/-- Request-file fixture for the C6 witness: a file with a comment, a
blank line and two PV lines, and a second file with an include. -/
def fsC6 : FS := fun p =>
  if p = chars "r.req" then
    some [Line.commentLine, Line.pvLine (chars "P1"), Line.blankLine, Line.pvLine (chars "P2")]
  else if p = chars "m.req" then
    some [Line.pvLine (chars "A"), Line.fileLine (chars "s.req") [(chars "M", chars "1")],
          Line.pvLine (chars "B")]
  else if p = chars "s.req" then some [Line.pvLine (chars "X$(M)")]
  else none

/-- Request-file fixture for the C7 witness. -/
def fsC7 : FS := fun p =>
  if p = chars "w.req" then some [Line.pvLine (chars "Q$(N)")]
  else none

/-! ### Lemmas: prefix tests and `replaceAll` -/

theorem isPfx_append_self : ∀ p r : List Char, isPfx p (p ++ r) = true
  | [], _ => rfl
  | c :: p, r => by simp [isPfx, isPfx_append_self p r]

theorem isPfx_cons_ne {c d : Char} (h : c ≠ d) (p s : List Char) :
    isPfx (c :: p) (d :: s) = false := by
  simp [isPfx, h]

theorem replAux_nil (pat repl : List Char) (fuel : Nat) : replAux pat repl fuel [] = [] := by
  cases fuel <;> rfl

theorem replAux_zero (pat repl s : List Char) : replAux pat repl 0 s = s := by
  cases s <;> rfl

theorem replAux_cons (pat repl : List Char) (fuel : Nat) (c : Char) (rest : List Char) :
    replAux pat repl (fuel + 1) (c :: rest) =
      if isPfx pat (c :: rest) then repl ++ replAux pat repl fuel ((c :: rest).drop pat.length)
      else c :: replAux pat repl fuel rest := rfl

theorem replAux_not_mem {c0 : Char} {pr repl : List Char} :
    ∀ (s : List Char) (fuel : Nat), c0 ∉ s → replAux (c0 :: pr) repl fuel s = s := by
  intro s
  induction s with
  | nil => intro fuel _; exact replAux_nil _ _ _
  | cons c rest ih =>
    intro fuel h
    rw [List.mem_cons, not_or] at h
    cases fuel with
    | zero => exact replAux_zero _ _ _
    | succ f =>
      rw [replAux_cons, if_neg (by simp [isPfx_cons_ne h.1 pr rest])]
      exact congrArg (c :: ·) (ih f h.2)

theorem replAux_not_contains {pat repl : List Char} :
    ∀ (s : List Char) (fuel : Nat), containsSub s pat = false → replAux pat repl fuel s = s := by
  intro s
  induction s with
  | nil => intro fuel _; exact replAux_nil _ _ _
  | cons c rest ih =>
    intro fuel h
    rw [containsSub, Bool.or_eq_false_iff] at h
    cases fuel with
    | zero => exact replAux_zero _ _ _
    | succ f =>
      rw [replAux_cons, if_neg (by simp [h.1])]
      exact congrArg (c :: ·) (ih f h.2)

theorem replAux_append_not_mem {c0 : Char} {pr repl : List Char} :
    ∀ (a s : List Char) (fuel : Nat), c0 ∉ a →
      replAux (c0 :: pr) repl (a.length + fuel) (a ++ s) = a ++ replAux (c0 :: pr) repl fuel s := by
  intro a
  induction a with
  | nil => intro s fuel _; simp
  | cons c a2 ih =>
    intro s fuel h
    rw [List.mem_cons, not_or] at h
    have hl : (c :: a2).length + fuel = (a2.length + fuel) + 1 := by
      simp [List.length_cons]; omega
    rw [hl, List.cons_append, replAux_cons,
      if_neg (by simp [isPfx_cons_ne h.1 pr (a2 ++ s)])]
    exact congrArg (c :: ·) (ih s fuel h.2)

theorem replAux_match {c0 : Char} (pr repl : List Char) (fuel : Nat) (t : List Char) :
    replAux (c0 :: pr) repl (fuel + 1) ((c0 :: pr) ++ t) =
      repl ++ replAux (c0 :: pr) repl fuel t := by
  rw [List.cons_append, replAux_cons, if_pos]
  · simp only [List.length_cons, List.drop_succ_cons, List.drop_left]
  · rw [← List.cons_append, isPfx_append_self]

theorem replaceAll_not_contains {s pat repl : List Char} (h : containsSub s pat = false) :
    replaceAll s pat repl = s :=
  replAux_not_contains s s.length h

/-! ### Lemmas: `takeWhile`, `dropWhile`, `pyStrip` -/

theorem takeWhile_append_all {p : Char → Bool} :
    ∀ a r : List Char, (∀ c ∈ a, p c = true) →
      List.takeWhile p (a ++ r) = a ++ List.takeWhile p r := by
  intro a
  induction a with
  | nil => intro r _; rfl
  | cons c a2 ih =>
    intro r h
    have hc : p c = true := h c (List.mem_cons_self _ _)
    simp only [List.cons_append, List.takeWhile_cons, hc, if_true]
    exact congrArg (c :: ·) (ih r fun d hd => h d (List.mem_cons_of_mem _ hd))

theorem dropWhile_append_all {p : Char → Bool} :
    ∀ a r : List Char, (∀ c ∈ a, p c = true) →
      List.dropWhile p (a ++ r) = List.dropWhile p r := by
  intro a
  induction a with
  | nil => intro r _; rfl
  | cons c a2 ih =>
    intro r h
    have hc : p c = true := h c (List.mem_cons_self _ _)
    simp only [List.cons_append, List.dropWhile_cons, hc, if_true]
    exact ih r fun d hd => h d (List.mem_cons_of_mem _ hd)

theorem takeWhile_head_false {p : Char → Bool} {r : List Char}
    (h : ∀ c, r.head? = some c → p c = false) : List.takeWhile p r = [] := by
  cases r with
  | nil => rfl
  | cons c t => simp [List.takeWhile_cons, h c rfl]

theorem dropWhile_head_false {p : Char → Bool} {r : List Char}
    (h : ∀ c, r.head? = some c → p c = false) : List.dropWhile p r = r := by
  cases r with
  | nil => rfl
  | cons c t => simp [List.dropWhile_cons, h c rfl]

theorem pyStrip_cons_ws {c : Char} (h : isWS c = true) (s : List Char) :
    pyStrip (c :: s) = pyStrip s := by
  simp [pyStrip, List.dropWhile_cons, h]

theorem pyStrip_no_trim {s : List Char}
    (h1 : ∀ c, s.head? = some c → isWS c = false)
    (h2 : ∀ c, s.getLast? = some c → isWS c = false) : pyStrip s = s := by
  have hfront : List.dropWhile isWS s = s := dropWhile_head_false h1
  have hback : List.dropWhile isWS s.reverse = s.reverse := by
    refine dropWhile_head_false fun c hc => ?_
    exact h2 c (by rw [← List.head?_reverse]; exact hc)
  rw [pyStrip, hfront, hback, List.reverse_reverse]

/-! ### Lemmas: decimal digits and JSON integers -/

theorem digitVal_digitChar {n : Nat} (h : n < 10) : digitVal (digitChar n) = n := by
  interval_cases n <;> decide

theorem isDigit_digitChar {n : Nat} (h : n < 10) : isDigit (digitChar n) = true := by
  interval_cases n <;> decide

theorem digitChar_ne_zero {n : Nat} (h : n < 10) (h1 : 1 ≤ n) : digitChar n ≠ '0' := by
  interval_cases n <;> decide

theorem foldDigits_cons (acc : Nat) (c : Char) (t : List Char) :
    foldDigits acc (c :: t) = foldDigits (acc * 10 + digitVal c) t := rfl

theorem foldDigits_nil (acc : Nat) : foldDigits acc [] = acc := rfl

theorem foldDigits_append (acc : Nat) (a b : List Char) :
    foldDigits acc (a ++ b) = foldDigits (foldDigits acc a) b := by
  induction a generalizing acc with
  | nil => rfl
  | cons c t ih => rw [List.cons_append, foldDigits_cons, foldDigits_cons, ih]

theorem natDigitsAux_spec :
    ∀ fuel n, n < fuel →
      natDigitsAux fuel n ≠ [] ∧ (∀ c ∈ natDigitsAux fuel n, isDigit c = true) ∧
        ∀ acc, foldDigits acc (natDigitsAux fuel n) =
          acc * 10 ^ (natDigitsAux fuel n).length + n := by
  intro fuel
  induction fuel with
  | zero => intro n h; omega
  | succ f ih =>
    intro n h
    by_cases h10 : n < 10
    · refine ⟨by simp [natDigitsAux, h10], ?_, ?_⟩
      · intro c hc
        simp only [natDigitsAux, if_pos h10, List.mem_singleton] at hc
        exact hc ▸ isDigit_digitChar h10
      · intro acc
        have hl : natDigitsAux (f + 1) n = [digitChar n] := by
          simp only [natDigitsAux, if_pos h10]
        rw [hl, foldDigits_cons, digitVal_digitChar h10]
        show acc * 10 + n = acc * 10 ^ [digitChar n].length + n
        rw [List.length_singleton, pow_one]
    · have hdiv : n / 10 < f := by
        have hlt : n / 10 < n := Nat.div_lt_self (by omega) (by omega)
        omega
      obtain ⟨hne, hdig, hfold⟩ := ih (n / 10) hdiv
      have heq : natDigitsAux (f + 1) n =
          natDigitsAux f (n / 10) ++ [digitChar (n % 10)] := by
        simp [natDigitsAux, h10]
      refine ⟨by simp [heq], ?_, ?_⟩
      · intro c hc
        rw [heq, List.mem_append, List.mem_singleton] at hc
        rcases hc with hc | hc
        · exact hdig c hc
        · exact hc ▸ isDigit_digitChar (Nat.mod_lt _ (by omega))
      · intro acc
        rw [heq, foldDigits_append, hfold acc]
        have hmod : digitVal (digitChar (n % 10)) = n % 10 :=
          digitVal_digitChar (Nat.mod_lt _ (by omega))
        rw [foldDigits_cons, hmod, foldDigits_nil, List.length_append, List.length_singleton]
        have hdm : n / 10 * 10 + n % 10 = n := by omega
        calc (acc * 10 ^ (natDigitsAux f (n / 10)).length + n / 10) * 10 + n % 10
            = acc * (10 ^ (natDigitsAux f (n / 10)).length * 10) +
                (n / 10 * 10 + n % 10) := by ring
          _ = acc * 10 ^ ((natDigitsAux f (n / 10)).length + 1) + n := by
              rw [pow_succ, hdm]

theorem natDigitsAux_head_ne_zero :
    ∀ fuel n, n < fuel → 1 ≤ n →
      ∀ c, (natDigitsAux fuel n).head? = some c → c ≠ '0' := by
  intro fuel
  induction fuel with
  | zero => intro n h; omega
  | succ f ih =>
    intro n h h1 c hc
    by_cases h10 : n < 10
    · simp only [natDigitsAux, if_pos h10, List.head?_cons, Option.some_inj] at hc
      exact hc ▸ digitChar_ne_zero h10 h1
    · have hdiv : n / 10 < f := by
        have hlt : n / 10 < n := Nat.div_lt_self (by omega) (by omega)
        omega
      have hne := (natDigitsAux_spec f (n / 10) hdiv).1
      obtain ⟨d0, t, ht⟩ := List.exists_cons_of_ne_nil hne
      simp only [natDigitsAux, if_neg h10, ht, List.cons_append, List.head?_cons,
        Option.some_inj] at hc
      exact ih (n / 10) hdiv (by omega) c (by rw [ht, List.head?_cons, hc])

theorem natChars_ne_nil (n : Nat) : natChars n ≠ [] :=
  (natDigitsAux_spec (n + 1) n (Nat.lt_succ_self n)).1

theorem natChars_digits {n : Nat} : ∀ c ∈ natChars n, isDigit c = true :=
  (natDigitsAux_spec (n + 1) n (Nat.lt_succ_self n)).2.1

theorem foldDigits_natChars (n : Nat) : foldDigits 0 (natChars n) = n := by
  have := (natDigitsAux_spec (n + 1) n (Nat.lt_succ_self n)).2.2 0
  simpa [natChars] using this

theorem natChars_head_ne_zero {n : Nat} (h1 : 1 ≤ n) :
    ∀ c, (natChars n).head? = some c → c ≠ '0' :=
  natDigitsAux_head_ne_zero (n + 1) n (Nat.lt_succ_self n) h1

theorem notDigitStart_head {rest : List Char} (h : notDigitStart rest = true) :
    ∀ c, rest.head? = some c → isDigit c = false := by
  intro c hc
  cases rest with
  | nil => simp at hc
  | cons d t =>
    simp only [List.head?_cons, Option.some_inj] at hc
    simp only [notDigitStart, Bool.not_eq_eq_eq_not, Bool.not_true] at h
    exact hc ▸ h

theorem isWS_cases {c : Char} (h : isWS c = true) :
    c = ' ' ∨ c = '\t' ∨ c = '\n' ∨ c = '\r' ∨ c = '\x0b' ∨ c = '\x0c' := by
  simpa [isWS, beq_iff_eq, or_assoc] using h

theorem isDigit_not_ws {c : Char} (h : isDigit c = true) : isWS c = false := by
  cases hws : isWS c with
  | false => rfl
  | true =>
    rcases isWS_cases hws with h1 | h1 | h1 | h1 | h1 | h1 <;> subst h1 <;>
      exact absurd h (by decide)

theorem skipWS_cons_of_not {c : Char} {s : List Char} (h : isWS c = false) :
    skipWS (c :: s) = c :: s := by
  simp [skipWS, List.dropWhile_cons, h]

theorem skipWS_cons_of_ws {c : Char} {s : List Char} (h : isWS c = true) :
    skipWS (c :: s) = skipWS s := by
  simp [skipWS, List.dropWhile_cons, h]

theorem parseNat_run {d : Char} {t rest : List Char}
    (ht : ∀ c ∈ d :: t, isDigit c = true)
    (hrest : notDigitStart rest = true)
    (hz : ¬(d = '0' ∧ (d :: t).length ≠ 1)) :
    parseNat ((d :: t) ++ rest) = some (foldDigits 0 (d :: t), rest) := by
  have hd : isDigit d = true := ht d (List.mem_cons_self _ _)
  have htake : List.takeWhile isDigit ((d :: t) ++ rest) = d :: t := by
    rw [takeWhile_append_all _ _ ht, takeWhile_head_false (notDigitStart_head hrest),
      List.append_nil]
  have hdrop : List.dropWhile isDigit ((d :: t) ++ rest) = rest := by
    rw [dropWhile_append_all _ _ ht, dropWhile_head_false (notDigitStart_head hrest)]
  rw [List.cons_append] at htake hdrop ⊢
  simp only [parseNat, if_pos hd, htake, hdrop]
  rw [if_neg hz]

theorem parseNat_natChars {n : Nat} {rest : List Char} (h : notDigitStart rest = true) :
    parseNat (natChars n ++ rest) = some (n, rest) := by
  obtain ⟨d, t, hds⟩ := List.exists_cons_of_ne_nil (natChars_ne_nil n)
  have hz : ¬(d = '0' ∧ (d :: t).length ≠ 1) := by
    rintro ⟨h0, hlen⟩
    rcases Nat.eq_zero_or_pos n with hn | hn
    · subst hn
      have : natChars 0 = ['0'] := by decide
      rw [this] at hds
      cases hds
      exact hlen rfl
    · exact natChars_head_ne_zero hn d (by rw [hds]; rfl) h0
  have := parseNat_run (hds ▸ natChars_digits) h hz
  rw [← hds] at this
  rw [this, foldDigits_natChars]

theorem isDigit_ne_minus {c : Char} (h : isDigit c = true) : ¬(c = '-') := by
  intro h1
  subst h1
  simp [isDigit] at h

theorem parseInt_intChars {i : Int} {rest : List Char} (h : notDigitStart rest = true) :
    parseInt (intChars i ++ rest) = some (i, rest) := by
  by_cases hi : i < 0
  · have hic : intChars i = '-' :: natChars i.natAbs := by rw [intChars, if_pos hi]
    rw [hic, List.cons_append]
    simp only [parseInt, if_pos rfl]
    rw [parseNat_natChars h, Option.map_some']
    show some (-(i.natAbs : Int), rest) = some (i, rest)
    have hab : -(i.natAbs : Int) = i := by omega
    rw [hab]
  · have hic : intChars i = natChars i.natAbs := by rw [intChars, if_neg hi]
    obtain ⟨d, t, hds⟩ := List.exists_cons_of_ne_nil (natChars_ne_nil i.natAbs)
    have hd : isDigit d = true := natChars_digits d (hds ▸ List.mem_cons_self _ _)
    rw [hic, hds, List.cons_append]
    simp only [parseInt, if_neg (isDigit_ne_minus hd)]
    rw [← List.cons_append, ← hds, parseNat_natChars h, Option.map_some']
    show some ((i.natAbs : Int), rest) = some (i, rest)
    have hab : (i.natAbs : Int) = i := by omega
    rw [hab]

theorem intChars_ne_nil (i : Int) : intChars i ≠ [] := by
  rw [intChars]
  split
  · simp
  · exact natChars_ne_nil _

theorem mem_intChars {i : Int} {c : Char} (h : c ∈ intChars i) :
    isDigit c = true ∨ c = '-' := by
  rw [intChars] at h
  split at h
  · rw [List.mem_cons] at h
    rcases h with h | h
    · exact Or.inr h
    · exact Or.inl (natChars_digits c h)
  · exact Or.inl (natChars_digits c h)

theorem intChars_head_not_ws {i : Int} {c : Char} (h : (intChars i).head? = some c) :
    isWS c = false := by
  have hm : c ∈ intChars i := by
    cases hic : intChars i with
    | nil => rw [hic] at h; simp at h
    | cons d t =>
      rw [hic, List.head?_cons, Option.some_inj] at h
      exact h ▸ List.mem_cons_self _ _
  rcases mem_intChars hm with hd | hd
  · exact isDigit_not_ws hd
  · subst hd; rfl

/-- The element body of `dumps`: `', '.join(map(repr, xs))`. -/
theorem mem_icat :
    ∀ (xs : List Int) (c : Char), c ∈ icatL (chars ", ") (xs.map intChars) →
      isDigit c = true ∨ c = '-' ∨ c = ',' ∨ c = ' ' := by
  intro xs
  induction xs with
  | nil => intro c h; simp [icatL] at h
  | cons i t ih =>
    intro c h
    cases t with
    | nil =>
      simp only [List.map_cons, List.map_nil, icatL] at h
      rcases mem_intChars h with h1 | h1
      · exact Or.inl h1
      · exact Or.inr (Or.inl h1)
    | cons j t2 =>
      rw [show icatL (chars ", ") ((i :: j :: t2).map intChars) =
          intChars i ++ (chars ", " ++ icatL (chars ", ") ((j :: t2).map intChars)) from by
            simp [icatL], List.mem_append, List.mem_append] at h
      rcases h with h | h | h
      · rcases mem_intChars h with h1 | h1
        · exact Or.inl h1
        · exact Or.inr (Or.inl h1)
      · have h2 : c = ',' ∨ c = ' ' := by simpa [chars] using h
        rcases h2 with h2 | h2
        · exact Or.inr (Or.inr (Or.inl h2))
        · exact Or.inr (Or.inr (Or.inr h2))
      · exact ih c h

theorem mem_dumps {xs : List Int} {c : Char} (h : c ∈ dumps xs) :
    isDigit c = true ∨ c = '-' ∨ c = ',' ∨ c = ' ' ∨ c = '[' ∨ c = ']' := by
  rw [dumps] at h
  rcases List.mem_cons.mp h with h | h
  · exact Or.inr (Or.inr (Or.inr (Or.inr (Or.inl h))))
  rcases List.mem_append.mp h with h | h
  · rcases mem_icat xs c h with h1 | h1 | h1 | h1
    · exact Or.inl h1
    · exact Or.inr (Or.inl h1)
    · exact Or.inr (Or.inr (Or.inl h1))
    · exact Or.inr (Or.inr (Or.inr (Or.inl h1)))
  · exact Or.inr (Or.inr (Or.inr (Or.inr (Or.inr (List.mem_singleton.mp h)))))

theorem not_at_mem_dumps (xs : List Int) : '@' ∉ dumps xs := by
  intro h
  rcases mem_dumps h with h1 | h1 | h1 | h1 | h1 | h1 <;> simp [isDigit] at h1

theorem icat_length (xs : List Int) (h : xs ≠ []) :
    xs.length ≤ (icatL (chars ", ") (xs.map intChars)).length + 1 := by
  induction xs with
  | nil => simp at h
  | cons i t ih =>
    cases t with
    | nil => simp [icatL]
    | cons j t2 =>
      have h1 : 1 ≤ (intChars i).length :=
        List.length_pos.mpr (intChars_ne_nil i)
      have h2 := ih (by simp)
      simp only [List.map_cons, icatL, List.length_cons, List.length_append] at *
      omega

theorem icat_cons_split (sep : List Char) (j : Int) (t2 : List Int) :
    ∃ r, icatL sep ((j :: t2).map intChars) = intChars j ++ r := by
  cases t2 with
  | nil => exact ⟨[], by simp [icatL]⟩
  | cons k t4 =>
    exact ⟨sep ++ icatL sep ((k :: t4).map intChars), by simp [icatL]⟩

theorem skipWS_append_of_head {a b : List Char} (ha : a ≠ [])
    (h : ∀ c, a.head? = some c → isWS c = false) : skipWS (a ++ b) = a ++ b := by
  obtain ⟨d, t, hdt⟩ := List.exists_cons_of_ne_nil ha
  subst hdt
  rw [List.cons_append]
  exact skipWS_cons_of_not (h d rfl)

theorem notDigitStart_cons (c : Char) (s : List Char) :
    notDigitStart (c :: s) = !isDigit c := rfl

theorem parseItemsLoop_icat :
    ∀ (t : List Int) (i : Int) (fuel : Nat) (extra : List Char), t.length ≤ fuel →
      parseItemsLoop (fuel + 1) (icatL (chars ", ") ((i :: t).map intChars) ++ ']' :: extra) =
        some (i :: t, extra) := by
  intro t
  induction t with
  | nil =>
    intro i fuel extra _
    simp only [List.map_cons, List.map_nil, icatL]
    simp only [parseItemsLoop]
    rw [parseInt_intChars (by rw [notDigitStart_cons]; decide)]
    simp only []
    rw [skipWS_cons_of_not (by decide)]
    simp only [List.head?_cons, List.tail_cons]
    rw [if_pos trivial]
  | cons j t2 ih =>
    intro i fuel extra hlen
    have hstep : icatL (chars ", ") ((i :: j :: t2).map intChars) ++ ']' :: extra =
        intChars i ++ (',' :: ' ' ::
          (icatL (chars ", ") ((j :: t2).map intChars) ++ ']' :: extra)) := by
      simp only [List.map_cons, icatL]
      simp [chars, List.append_assoc]
    rw [hstep]
    simp only [parseItemsLoop]
    rw [parseInt_intChars (by rw [notDigitStart_cons]; decide)]
    simp only []
    rw [skipWS_cons_of_not (by decide)]
    simp only [List.head?_cons, List.tail_cons]
    rw [if_neg (by decide), if_pos trivial]
    rw [skipWS_cons_of_ws (by decide)]
    have hskip : skipWS (icatL (chars ", ") ((j :: t2).map intChars) ++ ']' :: extra) =
        icatL (chars ", ") ((j :: t2).map intChars) ++ ']' :: extra := by
      obtain ⟨r, hr⟩ := icat_cons_split (chars ", ") j t2
      rw [hr, List.append_assoc]
      rw [skipWS_append_of_head (intChars_ne_nil j) (fun c hc => intChars_head_not_ws hc)]
    rw [hskip]
    obtain ⟨f2, hf2⟩ : ∃ f2, fuel = f2 + 1 := by
      cases fuel with
      | zero => simp at hlen
      | succ f => exact ⟨f, rfl⟩
    subst hf2
    rw [ih j f2 extra (by simpa using hlen)]

theorem loads_dumps (xs : List Int) : loads (dumps xs) = some (JVal.jlist xs) := by
  cases xs with
  | nil => decide
  | cons i t =>
    obtain ⟨r, hr⟩ := icat_cons_split (chars ", ") i t
    have hic : ∀ b : List Char,
        skipWS (icatL (chars ", ") ((i :: t).map intChars) ++ b) =
          icatL (chars ", ") ((i :: t).map intChars) ++ b := by
      intro b
      rw [hr, List.append_assoc,
        skipWS_append_of_head (intChars_ne_nil i) (fun c hc => intChars_head_not_ws hc),
        ← List.append_assoc]
    obtain ⟨d, t3, hds⟩ := List.exists_cons_of_ne_nil (intChars_ne_nil i)
    have hdne : d ≠ ']' := by
      have hm : (intChars i).head? = some d := by rw [hds]; rfl
      rcases mem_intChars (hds ▸ List.mem_cons_self d t3) with h1 | h1
      · intro h2; subst h2; simp [isDigit] at h1
      · intro h2; rw [h2] at h1; cases h1
    have hcat : icatL (chars ", ") ((i :: t).map intChars) ++ [']'] = d :: (t3 ++ (r ++ [']'])) := by
      rw [hr, hds]
      simp [List.append_assoc]
    rw [loads]
    rw [show skipWS (dumps (i :: t)) = dumps (i :: t) from by
      rw [dumps]; exact skipWS_cons_of_not (by decide)]
    rw [show dumps (i :: t) = '[' :: (icatL (chars ", ") ((i :: t).map intChars) ++ [']'])
      from rfl]
    simp only [loadsCore]
    rw [parseElems, hic [']']]
    rw [hcat]
    rw [if_neg (by simp [hdne])]
    rw [← hcat]
    have hlen2 : t.length ≤ ('[' :: (icatL (chars ", ") ((i :: t).map intChars) ++ [']'])).length := by
      have := icat_length (i :: t) (by simp)
      simp only [List.length_cons, List.length_append, List.length_singleton] at *
      omega
    obtain ⟨f2, hf2⟩ :
        ∃ f2, ('[' :: (icatL (chars ", ") ((i :: t).map intChars) ++ [']'])).length + 1 = f2 + 1 :=
      ⟨_, rfl⟩
    rw [hf2]
    rw [show (icatL (chars ", ") ((i :: t).map intChars) ++ [']'] :
        List Char) = icatL (chars ", ") ((i :: t).map intChars) ++ ']' :: [] from rfl]
    rw [parseItemsLoop_icat t i f2 [] (by omega)]
    simp [skipWS]

/-! ### Lemmas: value decoding of `restore_pvs` -/

theorem jsonTag_eq : jsonTag = '<' :: chars "JSON>:" := by decide

theorem arrTag_eq : arrTag = '@' :: chars "array@" := by decide

theorem decodeValue_plain {v : List Char} (h1 : isPfx jsonTag v = false)
    (h2 : isPfx arrTag v = false) : decodeValue v = some (RVal.rstr v) := by
  rw [decodeValue, normalizeLegacy, if_neg (by simp [h1]), decodeStage2, if_neg (by simp [h2])]

theorem replaceAll_arrTag_strip {s : List Char} (h : '@' ∉ s) :
    replaceAll (arrTag ++ s) arrTag [] = s := by
  have hlen : (arrTag ++ s).length = (6 + s.length) + 1 := by
    simp only [List.length_append]
    have : arrTag.length = 7 := by decide
    omega
  rw [replaceAll, hlen, arrTag_eq, replAux_match, replAux_not_mem s _ h, List.nil_append]

theorem pyStrip_dumps (xs : List Int) : pyStrip (dumps xs) = dumps xs := by
  refine pyStrip_no_trim ?_ ?_
  · intro c hc
    have hcc : '[' = c := by simpa [dumps] using hc
    subst hcc; rfl
  · intro c hc
    rw [show dumps xs = ('[' :: icatL (chars ", ") (xs.map intChars)) ++ [']'] from by
      simp [dumps], List.getLast?_concat, Option.some_inj] at hc
    subst hc; rfl

theorem decodeValue_array (xs : List Int) :
    decodeValue (arrTag ++ ' ' :: dumps xs) = some (RVal.rjson (JVal.jlist xs)) := by
  have hshape : arrTag ++ ' ' :: dumps xs = '@' :: (chars "array@" ++ ' ' :: dumps xs) := by
    rw [arrTag_eq, List.cons_append]
  have h1 : isPfx jsonTag (arrTag ++ ' ' :: dumps xs) = false := by
    rw [hshape, jsonTag_eq]
    exact isPfx_cons_ne (by decide) _ _
  rw [decodeValue, normalizeLegacy, if_neg (by simp [h1]), decodeStage2,
    if_pos (by simp [isPfx_append_self])]
  have hnotat : '@' ∉ ' ' :: dumps xs := by
    intro hm
    rw [List.mem_cons] at hm
    rcases hm with hm | hm
    · cases hm
    · exact not_at_mem_dumps xs hm
  rw [replaceAll_arrTag_strip hnotat, pyStrip_cons_ws (by decide), pyStrip_dumps]
  have hbrace : isPfx ['\x7b'] (dumps xs) = false := by
    rw [dumps]
    exact isPfx_cons_ne (by decide) _ _
  rw [braceStrip, if_neg (by simp [hbrace]), loads_dumps, Option.map_some']

theorem parseSavLine_savLine {n v : List Char} (hn : ' ' ∉ n) :
    parseSavLine (savLine n v) = some (pyStrip n, pyStrip v) := by
  have hline : savLine n v = (n ++ ' ' :: v) ++ ['\n'] := by
    simp [savLine]
  have hcore : (savLine n v).dropLast = n ++ ' ' :: v := by
    rw [hline, List.dropLast_concat]
  have hptrue : ∀ c ∈ n, (fun c => decide ¬(c = ' ')) c = true := by
    intro c hc
    simp only [decide_eq_true_eq]
    exact fun he => hn (he ▸ hc)
  have htake : (n ++ ' ' :: v).takeWhile (fun c => c ≠ ' ') = n := by
    rw [takeWhile_append_all _ _ hptrue]
    simp [List.takeWhile_cons]
  have hdrop : (n ++ ' ' :: v).dropWhile (fun c => c ≠ ' ') = ' ' :: v := by
    rw [dropWhile_append_all _ _ hptrue]
    simp [List.dropWhile_cons]
  rw [parseSavLine, hcore, if_pos (by simp), htake, hdrop, List.tail_cons]

/-! ### Lemmas: legacy-prefix normalization and macro expansion -/

theorem normalizeLegacy_legacy {p : List Char} (h : containsSub p jsonTag = false) :
    normalizeLegacy (jsonTag ++ p) = arrTag ++ p := by
  rw [normalizeLegacy, if_pos (by simp [isPfx_append_self])]
  have hlen : (jsonTag ++ p).length = (6 + p.length) + 1 := by
    simp only [List.length_append]
    have : jsonTag.length = 7 := by decide
    omega
  rw [replaceAll, hlen, jsonTag_eq, replAux_match, replAux_not_contains p _ (by
    rw [← jsonTag_eq]; exact h)]

theorem normalizeLegacy_arr (p : List Char) :
    normalizeLegacy (arrTag ++ p) = arrTag ++ p := by
  rw [normalizeLegacy, if_neg]
  simp only [Bool.not_eq_true]
  rw [jsonTag_eq, arrTag_eq, List.cons_append]
  exact isPfx_cons_ne (by decide) _ _

theorem expandMacros_nil (n : List Char) : expandMacros [] n = n := rfl

theorem expandMacros_cons (kv : List Char × List Char) (rest : Scope) (n : List Char) :
    expandMacros (kv :: rest) n =
      expandMacros rest (replaceAll n (chars "$(" ++ kv.1 ++ chars ")") kv.2) := rfl

theorem expandMacros_no_occurrence :
    ∀ (scope : Scope) (n : List Char),
      (∀ kv ∈ scope, containsSub n (chars "$(" ++ kv.1 ++ chars ")") = false) →
        expandMacros scope n = n := by
  intro scope
  induction scope with
  | nil => intro n _; rfl
  | cons kv rest ih =>
    intro n h
    rw [expandMacros_cons,
      replaceAll_not_contains (h kv (List.mem_cons_self _ _))]
    exact ih n fun kv2 h2 => h kv2 (List.mem_cons_of_mem _ h2)

theorem replAux_icat {pr repl : List Char} :
    ∀ (segs : List (List Char)) (extra : Nat), (∀ s ∈ segs, '$' ∉ s) →
      replAux ('$' :: pr) repl ((icatL ('$' :: pr) segs).length + extra)
          (icatL ('$' :: pr) segs) =
        icatL repl segs := by
  intro segs
  induction segs with
  | nil => intro extra _; exact replAux_nil _ _ _
  | cons s rest ih =>
    intro extra h
    cases rest with
    | nil => exact replAux_not_mem s _ (h s (List.mem_cons_self _ _))
    | cons s2 t =>
      have hi : icatL ('$' :: pr) (s :: s2 :: t) =
          s ++ (('$' :: pr) ++ icatL ('$' :: pr) (s2 :: t)) := by
        simp [icatL]
      have hl : (icatL ('$' :: pr) (s :: s2 :: t)).length + extra =
          s.length + (((icatL ('$' :: pr) (s2 :: t)).length + (pr.length + extra)) + 1) := by
        rw [hi]
        simp only [List.length_append, List.length_cons]
        omega
      rw [hl, hi, replAux_append_not_mem _ _ _ (h s (List.mem_cons_self _ _)),
        replAux_match, ih (pr.length + extra) fun s3 h3 => h s3 (List.mem_cons_of_mem _ h3)]
      simp [icatL, List.append_assoc]

theorem expandMacros_single {k v : List Char} (segs : List (List Char))
    (h : ∀ s ∈ segs, '$' ∉ s) :
    expandMacros [(k, v)] (icatL (chars "$(" ++ k ++ chars ")") segs) = icatL v segs := by
  have hpat : chars "$(" ++ k ++ chars ")" = '$' :: ('(' :: (k ++ chars ")")) := by
    simp [chars]
  rw [expandMacros_cons, expandMacros_nil, replaceAll, hpat]
  have := @replAux_icat ('(' :: (k ++ chars ")")) v segs 0 h
  rw [Nat.add_zero] at this
  exact this

/-! ### Lemmas: macro dictionaries -/

theorem lookupS_append_some {a : Scope} {k : List Char} {v : List Char}
    (h : lookupS a k = some v) (b : Scope) : lookupS (a ++ b) k = some v := by
  induction a with
  | nil => simp [lookupS] at h
  | cons kv rest ih =>
    rw [List.cons_append]
    rw [show lookupS (kv :: rest) k = if kv.1 = k then some kv.2 else lookupS rest k from rfl]
      at h
    rw [show lookupS (kv :: (rest ++ b)) k =
      if kv.1 = k then some kv.2 else lookupS (rest ++ b) k from rfl]
    by_cases hk : kv.1 = k
    · rwa [if_pos hk] at h ⊢
    · rw [if_neg hk] at h ⊢
      exact ih h

theorem lookupS_append_none {a : Scope} {k : List Char}
    (h : lookupS a k = none) (b : Scope) : lookupS (a ++ b) k = lookupS b k := by
  induction a with
  | nil => rfl
  | cons kv rest ih =>
    rw [show lookupS (kv :: rest) k = if kv.1 = k then some kv.2 else lookupS rest k from rfl]
      at h
    rw [List.cons_append,
      show lookupS (kv :: (rest ++ b)) k =
        if kv.1 = k then some kv.2 else lookupS (rest ++ b) k from rfl]
    by_cases hk : kv.1 = k
    · rw [if_pos hk] at h; cases h
    · rw [if_neg hk] at h
      rw [if_neg hk]
      exact ih h

theorem lookupS_map_update (base upd : Scope) (k : List Char) :
    lookupS (base.map fun kv => (kv.1, (lookupS upd kv.1).getD kv.2)) k =
      (lookupS base k).map fun v => (lookupS upd k).getD v := by
  induction base with
  | nil => rfl
  | cons kv rest ih =>
    rw [List.map_cons]
    rw [show lookupS ((kv.1, (lookupS upd kv.1).getD kv.2) ::
        rest.map fun kv => (kv.1, (lookupS upd kv.1).getD kv.2)) k =
      if kv.1 = k then some ((lookupS upd kv.1).getD kv.2)
      else lookupS (rest.map fun kv => (kv.1, (lookupS upd kv.1).getD kv.2)) k from rfl]
    rw [show lookupS (kv :: rest) k =
      if kv.1 = k then some kv.2 else lookupS rest k from rfl]
    by_cases hk : kv.1 = k
    · rw [if_pos hk, if_pos hk, hk, Option.map_some']
    · rw [if_neg hk, if_neg hk]
      exact ih

theorem lookupS_filter_isNone (base : Scope) :
    ∀ (upd : Scope) (k : List Char),
      lookupS (upd.filter fun kv => (lookupS base kv.1).isNone) k =
        if lookupS base k = none then lookupS upd k else none := by
  intro upd
  induction upd with
  | nil =>
    intro k
    by_cases hb : lookupS base k = none
    · simp [lookupS, hb]
    · simp [lookupS, hb]
  | cons kv rest ih =>
    intro k
    rw [List.filter_cons]
    by_cases hc : (lookupS base kv.1).isNone = true
    · rw [if_pos (by simpa using hc)]
      rw [show lookupS (kv :: rest.filter _) k =
        if kv.1 = k then some kv.2 else lookupS (rest.filter _) k from rfl]
      by_cases hk : kv.1 = k
      · subst hk
        rw [if_pos rfl,
          show lookupS (kv :: rest) kv.1 =
            if kv.1 = kv.1 then some kv.2 else lookupS rest kv.1 from rfl, if_pos rfl]
        rw [if_pos (by simpa [Option.isNone_iff_eq_none] using hc)]
      · rw [if_neg hk, ih k,
          show lookupS (kv :: rest) k =
            if kv.1 = k then some kv.2 else lookupS rest k from rfl, if_neg hk]
    · rw [if_neg (by simpa using hc)]
      rw [ih k]
      by_cases hk : kv.1 = k
      · subst hk
        have hbs : ¬(lookupS base kv.1 = none) := by
          simpa [Option.isNone_iff_eq_none] using hc
        rw [if_neg hbs, if_neg hbs]
      · rw [show lookupS (kv :: rest) k =
          if kv.1 = k then some kv.2 else lookupS rest k from rfl, if_neg hk]

theorem lookupS_dictUpdate_some {base upd : Scope} {k v : List Char}
    (h : lookupS upd k = some v) : lookupS (dictUpdate base upd) k = some v := by
  rw [dictUpdate]
  cases hb : lookupS base k with
  | none =>
    rw [lookupS_append_none (by rw [lookupS_map_update, hb]; rfl)]
    rw [lookupS_filter_isNone, if_pos hb, h]
  | some w =>
    refine lookupS_append_some ?_ _
    rw [lookupS_map_update, hb, Option.map_some', h, Option.getD_some]

theorem lookupS_dictUpdate_none {base upd : Scope} {k : List Char}
    (h : lookupS upd k = none) : lookupS (dictUpdate base upd) k = lookupS base k := by
  rw [dictUpdate]
  cases hb : lookupS base k with
  | none =>
    rw [lookupS_append_none (by rw [lookupS_map_update, hb]; rfl)]
    rw [lookupS_filter_isNone, if_pos hb, h]
  | some w =>
    have hmap : lookupS (base.map fun kv => (kv.1, (lookupS upd kv.1).getD kv.2)) k =
        some w := by
      rw [lookupS_map_update, hb, Option.map_some', h, Option.getD_none]
    rw [lookupS_append_some hmap]

/-! ### Lemmas: the request-file walk -/

theorem parseEntriesF_nil (fs : FS) (fuel : Nat) (path : List Char) (scope : Scope) :
    parseEntriesF fs fuel path scope [] = some [] := by
  cases fuel <;> rfl

theorem parseEntriesF_zero (fs : FS) (path : List Char) (scope : Scope) (e : Entry)
    (es : List Entry) : parseEntriesF fs 0 path scope (e :: es) = none := rfl

theorem parseEntriesF_pv (fs : FS) (fuel : Nat) (path : List Char) (scope : Scope)
    (n : List Char) (rest : List Entry) :
    parseEntriesF fs (fuel + 1) path scope (Entry.pvE n :: rest) =
      (parseEntriesF fs fuel path scope rest).map (expandMacros scope n :: ·) := rfl

theorem parseEntriesF_file (fs : FS) (fuel : Nat) (path : List Char) (scope : Scope)
    (sub : List Char) (ms : List (List Char × List Char)) (rest : List Entry) :
    parseEntriesF fs (fuel + 1) path scope (Entry.fileE sub ms :: rest) =
      match fs (resolveIncludePath path sub) with
      | none => none
      | some ls =>
        match parseEntriesF fs fuel (resolveIncludePath path sub)
                (dictUpdate scope (dictOfPairs ms)) (astOf ls),
              parseEntriesF fs fuel path scope rest with
        | some a, some b => some (a ++ b)
        | _, _ => none := rfl

theorem parseEntriesF_mono :
    ∀ (fuel : Nat) {fs : FS} {path : List Char} {scope : Scope} {es : List Entry}
      {r : List (List Char)},
      parseEntriesF fs fuel path scope es = some r →
        parseEntriesF fs (fuel + 1) path scope es = some r := by
  intro fuel
  induction fuel with
  | zero =>
    intro fs path scope es r h
    cases es with
    | nil => rw [parseEntriesF_nil] at h ⊢; exact h
    | cons e rest => rw [parseEntriesF_zero] at h; exact Option.noConfusion h
  | succ f ih =>
    intro fs path scope es r h
    cases es with
    | nil => rw [parseEntriesF_nil] at h ⊢; exact h
    | cons e rest =>
      cases e with
      | pvE n =>
        rw [parseEntriesF_pv] at h ⊢
        obtain ⟨r2, hr2, hrr⟩ := Option.map_eq_some'.mp h
        rw [ih hr2, Option.map_some', hrr]
      | fileE sub ms =>
        rw [parseEntriesF_file] at h ⊢
        cases hfs : fs (resolveIncludePath path sub) with
        | none => rw [hfs] at h; exact Option.noConfusion h
        | some ls =>
          rw [hfs] at h
          simp only [] at h ⊢
          cases hsub : parseEntriesF fs f (resolveIncludePath path sub)
              (dictUpdate scope (dictOfPairs ms)) (astOf ls) with
          | none => rw [hsub] at h; exact Option.noConfusion h
          | some a =>
            rw [hsub] at h
            cases hrest : parseEntriesF fs f path scope rest with
            | none => rw [hrest] at h; exact Option.noConfusion h
            | some b =>
              rw [hrest] at h
              rw [ih hsub, ih hrest]
              exact h

theorem parseEntriesF_add {fs : FS} {path : List Char} {scope : Scope} {es : List Entry}
    {f : Nat} {r : List (List Char)} (h : parseEntriesF fs f path scope es = some r) :
    ∀ k, parseEntriesF fs (f + k) path scope es = some r := by
  intro k
  induction k with
  | zero => exact h
  | succ k2 ih => exact parseEntriesF_mono (f + k2) ih

theorem parseEntriesF_monoLe {fs : FS} {path : List Char} {scope : Scope} {es : List Entry}
    {f f2 : Nat} {r : List (List Char)} (hle : f ≤ f2)
    (h : parseEntriesF fs f path scope es = some r) :
    parseEntriesF fs f2 path scope es = some r := by
  have := parseEntriesF_add h (f2 - f)
  rwa [show f + (f2 - f) = f2 from by omega] at this

theorem parseEntriesF_append {fs : FS} {path : List Char} {scope : Scope} :
    ∀ (es1 : List Entry) (f1 : Nat) (r1 : List (List Char)),
      parseEntriesF fs f1 path scope es1 = some r1 →
      ∀ (es2 : List Entry) (f2 : Nat) (r2 : List (List Char)),
        parseEntriesF fs f2 path scope es2 = some r2 →
        parseEntriesF fs (f1 + f2) path scope (es1 ++ es2) = some (r1 ++ r2) := by
  intro es1
  induction es1 with
  | nil =>
    intro f1 r1 h1 es2 f2 r2 h2
    rw [parseEntriesF_nil, Option.some_inj] at h1
    subst h1
    rw [List.nil_append, List.nil_append]
    exact parseEntriesF_monoLe (by omega) h2
  | cons e rest ih =>
    intro f1 r1 h1 es2 f2 r2 h2
    cases f1 with
    | zero => rw [parseEntriesF_zero] at h1; exact Option.noConfusion h1
    | succ g =>
      cases e with
      | pvE n =>
        rw [parseEntriesF_pv] at h1
        obtain ⟨r3, hr3, hrr⟩ := Option.map_eq_some'.mp h1
        subst hrr
        rw [List.cons_append, show g + 1 + f2 = (g + f2) + 1 from by omega,
          parseEntriesF_pv, ih g r3 hr3 es2 f2 r2 h2, Option.map_some', List.cons_append]
      | fileE sub ms =>
        rw [parseEntriesF_file] at h1
        cases hfs : fs (resolveIncludePath path sub) with
        | none => rw [hfs] at h1; exact Option.noConfusion h1
        | some ls =>
          rw [hfs] at h1
          simp only [] at h1
          cases hsub : parseEntriesF fs g (resolveIncludePath path sub)
              (dictUpdate scope (dictOfPairs ms)) (astOf ls) with
          | none => rw [hsub] at h1; exact Option.noConfusion h1
          | some a =>
            rw [hsub] at h1
            cases hrest : parseEntriesF fs g path scope rest with
            | none => rw [hrest] at h1; exact Option.noConfusion h1
            | some b =>
              rw [hrest, Option.some_inj] at h1
              subst h1
              rw [List.cons_append, show g + 1 + f2 = (g + f2) + 1 from by omega,
                parseEntriesF_file, hfs]
              simp only []
              rw [parseEntriesF_monoLe (by omega) hsub,
                ih g b hrest es2 f2 r2 h2]
              rw [List.append_assoc]

theorem parseEntriesF_pvs (fs : FS) (path : List Char) (scope : Scope) :
    ∀ (toks : List (List Char)) (fuel : Nat), toks.length ≤ fuel →
      parseEntriesF fs fuel path scope (toks.map Entry.pvE) =
        some (toks.map (expandMacros scope)) := by
  intro toks
  induction toks with
  | nil => intro fuel _; exact parseEntriesF_nil _ _ _ _
  | cons n rest ih =>
    intro fuel hlen
    cases fuel with
    | zero => simp at hlen
    | succ g =>
      rw [List.map_cons, parseEntriesF_pv, ih g (by simpa using hlen), Option.map_some',
        List.map_cons]

theorem astOf_noInclude :
    ∀ lines : List Line, noInclude lines = true →
      astOf lines = (pvTokens lines).map Entry.pvE := by
  intro lines
  induction lines with
  | nil => intro _; rfl
  | cons l rest ih =>
    intro h
    rw [noInclude, List.all_cons, Bool.and_eq_true] at h
    cases l with
    | commentLine => exact ih h.2
    | blankLine => exact ih h.2
    | pvLine t =>
      rw [show astOf (Line.pvLine t :: rest) = Entry.pvE t :: astOf rest from rfl,
        show pvTokens (Line.pvLine t :: rest) = t :: pvTokens rest from rfl,
        List.map_cons, ih h.2]
    | fileLine p ms => simp at h

theorem collectVals_eq (env : List Char → Option SValue) :
    ∀ pvs : List (List Char),
      collectVals env pvs =
        ((pvs.filter fun n => (env n).isNone).map cannotMsg,
         pvs.filterMap fun n => (env n).map fun sv => (n, encodeSVal sv)) := by
  intro pvs
  induction pvs with
  | nil => rfl
  | cons n rest ih =>
    rw [show collectVals env (n :: rest) =
      match env n with
      | none => (cannotMsg n :: (collectVals env rest).1, (collectVals env rest).2)
      | some sv =>
        ((collectVals env rest).1, (n, encodeSVal sv) :: (collectVals env rest).2) from rfl]
    cases he : env n with
    | none =>
      rw [ih]
      rw [List.filter_cons, List.filterMap_cons, he]
      simp [he]
    | some sv =>
      rw [ih]
      rw [List.filter_cons, List.filterMap_cons, he]
      simp [he]

theorem pyStrip_arr_value (xs : List Int) :
    pyStrip (arrTag ++ ' ' :: dumps xs) = arrTag ++ ' ' :: dumps xs := by
  refine pyStrip_no_trim ?_ ?_
  · intro c hc
    rw [arrTag_eq, List.cons_append, List.head?_cons, Option.some_inj] at hc
    subst hc; rfl
  · intro c hc
    rw [show arrTag ++ ' ' :: dumps xs =
      (arrTag ++ ' ' :: '[' :: icatL (chars ", ") (xs.map intChars)) ++ [']'] from by
        simp [dumps, List.append_assoc], List.getLast?_concat, Option.some_inj] at hc
    subst hc; rfl


/-! ### Claim theorems -/

/-- C1: evaluation of `restore_pvs` on a save file whose PV `A` cannot
connect and whose PV `B` has no write access: both failures are only
printed, the remaining PV `C` is still written, and the function returns
`True` — not `False` as its docstring ("Returns True if all pvs were
restored successfully") and the spec require, because `success = False`
is set only in the unreachable `except` branch. -/
theorem c1_restore_connect_failure_returns_true :
    restore_pvs envC1 (chars "A 1\nB 2\nC 3\n<END>\n") =
      (some true, [REvent.cannotConnect (chars "A"), REvent.noWriteAccess (chars "B"),
        REvent.put (chars "C") (RVal.rstr (chars "3"))]) := by decide

/-- C2 counterexample: the save/restore round trip is not the identity on
every scalar: the scalar string value `"@array@ 1"` is written verbatim
by the save encoding but decoded by restore as the JSON number `1`, not
as the original string. -/
theorem c2_scalar_roundtrip_counterexample :
    decodeSavedLine (savLine (chars "PV") (encodeSVal (SValue.scalar (chars "@array@ 1")))) ≠
      some (pyStrip (chars "PV"), RVal.rstr (chars "@array@ 1")) := by decide

/-- C2 amended: for a scalar whose string form is whitespace-stripped,
newline-free and does not begin with `@array@` or `<JSON>:`, writing a
save-file line and decoding it yields the original string; for a
multi-element numeric (integer) array, encoding with `@array@` plus JSON
and decoding yields an element-wise equal sequence. -/
theorem c2_roundtrip_amended (name s : List Char) (xs : List Int)
    (hname : ' ' ∉ name) (_hnl : '\n' ∉ name) :
    (pyStrip s = s → '\n' ∉ s → isPfx arrTag s = false → isPfx jsonTag s = false →
      decodeSavedLine (savLine name (encodeSVal (SValue.scalar s))) =
        some (pyStrip name, RVal.rstr s)) ∧
    (2 ≤ xs.length →
      decodeSavedLine (savLine name (encodeSVal (SValue.numArr xs))) =
        some (pyStrip name, RVal.rjson (JVal.jlist xs))) := by
  constructor
  · intro hs _ ha hj
    show decodeSavedLine (savLine name s) = _
    simp only [decodeSavedLine]
    rw [parseSavLine_savLine hname]
    simp only []
    rw [hs, decodeValue_plain hj ha, Option.map_some']
  · intro _
    show decodeSavedLine (savLine name (arrTag ++ ' ' :: dumps xs)) = _
    simp only [decodeSavedLine]
    rw [parseSavLine_savLine hname]
    simp only []
    rw [pyStrip_arr_value xs, decodeValue_array xs, Option.map_some']

/-- C2 witness: the amended round trip at the scalar `"3.14"` and the
array `[1, -2, 30]` for the PV name `PV:X`. -/
theorem c2_roundtrip_amended_witness :
    (' ' ∉ chars "PV:X" ∧ pyStrip (chars "3.14") = chars "3.14" ∧
      2 ≤ ([1, -2, 30] : List Int).length) ∧
    decodeSavedLine (savLine (chars "PV:X") (encodeSVal (SValue.scalar (chars "3.14")))) =
      some (pyStrip (chars "PV:X"), RVal.rstr (chars "3.14")) ∧
    decodeSavedLine (savLine (chars "PV:X") (encodeSVal (SValue.numArr [1, -2, 30]))) =
      some (pyStrip (chars "PV:X"), RVal.rjson (JVal.jlist [1, -2, 30])) :=
  ⟨⟨by decide, by decide, by decide⟩,
   (c2_roundtrip_amended (chars "PV:X") (chars "3.14") [1, -2, 30] (by decide) (by decide)).1
     (by decide) (by decide) (by decide) (by decide),
   (c2_roundtrip_amended (chars "PV:X") (chars "3.14") [1, -2, 30] (by decide) (by decide)).2
     (by decide)⟩

/-- C3: for every request file that resolves to a PV list, `save_pvs`
prints a `Cannot connect` diagnostic for each PV that fails to connect
and skips it, and writes a well-formed file: the two `#` header comment
lines, one `name value` line for each connected PV in resolved order,
and the terminating `<END>` line. -/
theorem c3_save_skips_and_well_formed (fs : FS) (fuel : Nat) (req : List Char)
    (env : List Char → Option SValue) (ts : List Char) (pvs : List (List Char))
    (h : parseReqF fs fuel req [] = some pvs) :
    save_pvs fs fuel req env ts =
      some ((pvs.filter fun n => (env n).isNone).map cannotMsg,
        chars "# File saved by pyepics autosave.save_pvs() on " ++ ts ++ chars "\n" ++
        chars "# Edit with extreme care.\n" ++
        ((pvs.filterMap fun n => (env n).map fun sv => (n, encodeSVal sv)).map
          fun p => savLine p.1 p.2).foldr (· ++ ·) [] ++
        chars "<END>\n") := by
  simp only [save_pvs]
  rw [h]
  simp only []
  rw [collectVals_eq]
  rfl

/-- C3 witness: saving request file `q.req` (PVs `P1`, `P2`) where `P1`
is a connected scalar and `P2` cannot connect. -/
theorem c3_save_skips_and_well_formed_witness :
    parseReqF fsC3 2 (chars "q.req") [] = some [chars "P1", chars "P2"] ∧
    save_pvs fsC3 2 (chars "q.req") envC3 (chars "T") =
      some ((([chars "P1", chars "P2"].filter fun n => (envC3 n).isNone).map cannotMsg),
        chars "# File saved by pyepics autosave.save_pvs() on " ++ chars "T" ++ chars "\n" ++
        chars "# Edit with extreme care.\n" ++
        (([chars "P1", chars "P2"].filterMap fun n =>
          (envC3 n).map fun sv => (n, encodeSVal sv)).map
          fun p => savLine p.1 p.2).foldr (· ++ ·) [] ++
        chars "<END>\n") :=
  ⟨by decide,
   c3_save_skips_and_well_formed fsC3 2 (chars "q.req") envC3 (chars "T")
     [chars "P1", chars "P2"] (by decide)⟩

/-- C4 counterexample: macro expansion is not independent of the
iteration order over the scope: with the same two bindings
`A ↦ $(B)`, `B ↦ x` (a permutation of each other), the name `$(A)`
expands to `x` in one order and to `$(B)` in the other, because the
value substituted for `A` itself contains the bound placeholder `$(B)`. -/
theorem c4_order_counterexample :
    List.Perm [(chars "A", chars "$(B)"), (chars "B", chars "x")]
        [(chars "B", chars "x"), (chars "A", chars "$(B)")] ∧
      expandMacros [(chars "A", chars "$(B)"), (chars "B", chars "x")] (chars "$(A)") ≠
        expandMacros [(chars "B", chars "x"), (chars "A", chars "$(B)")] (chars "$(A)") :=
  ⟨List.Perm.swap _ _ _, by decide⟩

/-- C4 amended: expansion applies each key's replace-all sequentially in
the scope's iteration order, so the result can depend on that order when
a substituted value forms another bound placeholder; a name in which no
bound key's placeholder occurs is returned verbatim and no error is
raised; and for a single binding every occurrence of the placeholder is
replaced: a name made of `$`-free segments joined by `$(k)` expands to
the same segments joined by the value. -/
theorem c4_expansion_amended :
    (∀ (scope : Scope) (n : List Char),
      (∀ kv ∈ scope, containsSub n (chars "$(" ++ kv.1 ++ chars ")") = false) →
        expandMacros scope n = n) ∧
    (∀ (k v : List Char) (segs : List (List Char)), (∀ s ∈ segs, '$' ∉ s) →
      expandMacros [(k, v)] (icatL (chars "$(" ++ k ++ chars ")") segs) = icatL v segs) :=
  ⟨expandMacros_no_occurrence, fun _ _ segs h => expandMacros_single segs h⟩

/-- C4 witness: the unbound placeholder `$(B)` is left verbatim under the
scope `A ↦ 1`, and the single binding `M ↦ 7` replaces the placeholder
occurrence in `PV:$(M):E`. -/
theorem c4_expansion_amended_witness :
    ((∀ kv ∈ ([(chars "A", chars "1")] : Scope),
        containsSub (chars "X$(B)") (chars "$(" ++ kv.1 ++ chars ")") = false) ∧
      (∀ s ∈ [chars "PV:", chars ":E"], '$' ∉ s)) ∧
    expandMacros [(chars "A", chars "1")] (chars "X$(B)") = chars "X$(B)" ∧
    expandMacros [(chars "M", chars "7")]
        (icatL (chars "$(" ++ chars "M" ++ chars ")") [chars "PV:", chars ":E"]) =
      icatL (chars "7") [chars "PV:", chars ":E"] :=
  ⟨⟨by decide, by decide⟩,
   c4_expansion_amended.1 [(chars "A", chars "1")] (chars "X$(B)") (by decide),
   c4_expansion_amended.2 (chars "M") (chars "7") [chars "PV:", chars ":E"] (by decide)⟩

/-- C5: the include path of a `file` entry is resolved against the
directory of the including request file through
`normpath(join(dirname(request_file), subfile))`; the resolution takes
no working-directory input at all (the `_cwd` binder below does not
occur in the conclusion), so for `a/req.req` including `sub/b.req` the
opened file is `a/sub/b.req` whatever the working directory, as the
parse of the concrete two-file fixture confirms. -/
theorem c5_include_relative_to_including_file (_cwd : List Char) :
    resolveIncludePath (chars "a/req.req") (chars "sub/b.req") = chars "a/sub/b.req" ∧
    parseReqF fsC5 2 (chars "a/req.req") [] = some [chars "PV:X"] := by decide

/-- C6: (1) a request file with no include lines resolves, under the
default empty macro scope, to exactly its PV tokens in file order with
comment and blank lines removed; (2) an include entry splices the
included file's expansion at the position of its include line, between
the expansion of the entries before it and the expansion of the rest. -/
theorem c6_resolved_order :
    (∀ (fs : FS) (fuel : Nat) (path : List Char) (lines : List Line),
      fs path = some lines → noInclude lines = true → (astOf lines).length ≤ fuel →
        parseReqF fs fuel path [] = some (pvTokens lines)) ∧
    (∀ (fs : FS) (f1 f2 : Nat) (path : List Char) (scope : Scope) (pre : List Entry)
      (sub : List Char) (ms : List (List Char × List Char)) (rest : List Entry)
      (c : List (List Char)) (ls : List Line) (a b : List (List Char)),
      parseEntriesF fs f1 path scope pre = some c →
      fs (resolveIncludePath path sub) = some ls →
      parseEntriesF fs f2 (resolveIncludePath path sub)
          (dictUpdate scope (dictOfPairs ms)) (astOf ls) = some a →
      parseEntriesF fs f2 path scope rest = some b →
      parseEntriesF fs (f1 + (f2 + 1)) path scope
          (pre ++ Entry.fileE sub ms :: rest) = some (c ++ (a ++ b))) := by
  constructor
  · intro fs fuel path lines hfs hni hlen
    rw [parseReqF, hfs]
    simp only []
    rw [astOf_noInclude lines hni]
    have hmap := parseEntriesF_pvs fs path [] (pvTokens lines) fuel (by
      rw [astOf_noInclude lines hni] at hlen
      simpa using hlen)
    rw [hmap]
    have hid : expandMacros ([] : Scope) = id := funext fun n => rfl
    rw [hid, List.map_id]
  · intro fs f1 f2 path scope pre sub ms rest c ls a b h1 hfs h3 h4
    have hstep : parseEntriesF fs (f2 + 1) path scope (Entry.fileE sub ms :: rest) =
        some (a ++ b) := by
      rw [parseEntriesF_file, hfs]
      simp only []
      rw [h3, h4]
    exact parseEntriesF_append pre f1 c h1 (Entry.fileE sub ms :: rest) (f2 + 1) (a ++ b) hstep

/-- C6 witness: resolving `r.req` (comment, `P1`, blank, `P2`) gives
`[P1, P2]`, and the include of `s.req` in `m.req` splices `X1` between
`A` and `B`. -/
theorem c6_resolved_order_witness :
    parseReqF fsC6 3 (chars "r.req") [] =
      some (pvTokens [Line.commentLine, Line.pvLine (chars "P1"), Line.blankLine,
        Line.pvLine (chars "P2")]) ∧
    parseEntriesF fsC6 (1 + (2 + 1)) (chars "m.req") []
        ([Entry.pvE (chars "A")] ++
          Entry.fileE (chars "s.req") [(chars "M", chars "1")] :: [Entry.pvE (chars "B")]) =
      some ([chars "A"] ++ ([chars "X1"] ++ [chars "B"])) :=
  ⟨c6_resolved_order.1 fsC6 3 (chars "r.req")
      [Line.commentLine, Line.pvLine (chars "P1"), Line.blankLine, Line.pvLine (chars "P2")]
      (by decide) (by decide) (by decide),
   c6_resolved_order.2 fsC6 1 2 (chars "m.req") [] [Entry.pvE (chars "A")] (chars "s.req")
      [(chars "M", chars "1")] [Entry.pvE (chars "B")] [chars "A"]
      [Line.pvLine (chars "X$(M)")] [chars "X1"] [chars "B"]
      (by decide) (by decide) (by decide) (by decide)⟩

/-- C7: the scope passed to the recursive call for an include is the
inherited mapping extended with the include's own assignments — an
assignment of the include shadows an inherited binding of the same name,
and a name bound only in the inherited scope keeps its value — and the
caller's own scope is unchanged by processing an include: the entries
after any prefix of entries (includes or not) are still expanded with
the very same scope, so results concatenate. -/
theorem c7_scope_copy_and_frame :
    (∀ (base : Scope) (ms : List (List Char × List Char)) (k v : List Char),
      lookupS (dictOfPairs ms) k = some v →
        lookupS (dictUpdate base (dictOfPairs ms)) k = some v) ∧
    (∀ (base : Scope) (ms : List (List Char × List Char)) (k : List Char),
      lookupS (dictOfPairs ms) k = none →
        lookupS (dictUpdate base (dictOfPairs ms)) k = lookupS base k) ∧
    (∀ (fs : FS) (f1 f2 : Nat) (path : List Char) (scope : Scope) (es1 es2 : List Entry)
      (r1 r2 : List (List Char)),
      parseEntriesF fs f1 path scope es1 = some r1 →
      parseEntriesF fs f2 path scope es2 = some r2 →
      parseEntriesF fs (f1 + f2) path scope (es1 ++ es2) = some (r1 ++ r2)) :=
  ⟨fun _ _ _ _ h => lookupS_dictUpdate_some h,
   fun _ _ _ h => lookupS_dictUpdate_none h,
   fun _ f1 f2 _ _ es1 es2 r1 r2 h1 h2 => parseEntriesF_append es1 f1 r1 h1 es2 f2 r2 h2⟩

/-- C7 witness: with inherited scope `A ↦ 1` and include assignments
`A ↦ 2, B ↦ 3`, the merged scope maps `A` to `2` (shadowing) and an
unassigned key `C` to the inherited lookup; and two PV entries expanded
under the scope `N ↦ 9` concatenate. -/
theorem c7_scope_copy_and_frame_witness :
    lookupS (dictUpdate [(chars "A", chars "1")]
        (dictOfPairs [(chars "A", chars "2"), (chars "B", chars "3")])) (chars "A") =
      some (chars "2") ∧
    lookupS (dictUpdate [(chars "A", chars "1")]
        (dictOfPairs [(chars "A", chars "2"), (chars "B", chars "3")])) (chars "C") =
      lookupS [(chars "A", chars "1")] (chars "C") ∧
    parseEntriesF fsC7 (1 + 1) (chars "w.req") [(chars "N", chars "9")]
        ([Entry.pvE (chars "Q$(N)")] ++ [Entry.pvE (chars "Q$(N)")]) =
      some ([chars "Q9"] ++ [chars "Q9"]) :=
  ⟨c7_scope_copy_and_frame.1 [(chars "A", chars "1")]
      [(chars "A", chars "2"), (chars "B", chars "3")] (chars "A") (chars "2") (by decide),
   c7_scope_copy_and_frame.2.1 [(chars "A", chars "1")]
      [(chars "A", chars "2"), (chars "B", chars "3")] (chars "C") (by decide),
   c7_scope_copy_and_frame.2.2 fsC7 1 1 (chars "w.req") [(chars "N", chars "9")]
      [Entry.pvE (chars "Q$(N)")] [Entry.pvE (chars "Q$(N)")] [chars "Q9"] [chars "Q9"]
      (by decide) (by decide)⟩

/-- C8 counterexample: the legacy `<JSON>:` prefix is not equivalent to
`@array@` for every payload: `str.replace` rewrites every occurrence of
the old prefix, so for the payload `" [1<JSON>:2]"` the legacy form
decodes to the JSON list `[12]` while the `@array@` form raises a JSON
decode error. -/
theorem c8_legacy_payload_counterexample :
    decodeValue (chars "<JSON>:" ++ chars " [1<JSON>:2]") ≠
      decodeValue (chars "@array@" ++ chars " [1<JSON>:2]") := by decide

/-- C8 amended: for every payload that does not itself contain the text
`<JSON>:`, a save-file value with the legacy prefix `<JSON>:` decodes
exactly like the same payload with the prefix `@array@`; in particular
`<JSON>: [1,2,3]` and `@array@ [1,2,3]` decode identically. -/
theorem c8_legacy_prefix_amended (p : List Char)
    (h : containsSub p (chars "<JSON>:") = false) :
    decodeValue (chars "<JSON>:" ++ p) = decodeValue (chars "@array@" ++ p) := by
  show decodeValue (jsonTag ++ p) = decodeValue (arrTag ++ p)
  rw [decodeValue, decodeValue, normalizeLegacy_legacy h, normalizeLegacy_arr]

/-- C8 witness: the amended equivalence at the payload `" [1,2,3]"`. -/
theorem c8_legacy_prefix_amended_witness :
    containsSub (chars " [1,2,3]") (chars "<JSON>:") = false ∧
    decodeValue (chars "<JSON>:" ++ chars " [1,2,3]") =
      decodeValue (chars "@array@" ++ chars " [1,2,3]") :=
  ⟨by decide, c8_legacy_prefix_amended (chars " [1,2,3]") (by decide)⟩

/-- C9: a save file containing, before the `<END>` sentinel, a line that
is neither a comment nor contains a space (here a blank line) makes the
name/value unpacking raise an uncaught `ValueError`, aborting the whole
restore: the PV `A` before the blank line is written, the PV `B` after
it is never attempted, and no per-PV diagnostic is recorded. -/
theorem c9_blank_line_aborts_restore :
    restore_pvs envW (chars "# h\nA 1\n\nB 2\n<END>\n") =
      (none, [REvent.put (chars "A") (RVal.rstr (chars "1"))]) := by decide

/-- C10: `restore_pvs` drops the final character of every data line
(`line[:-1]`) before splitting: for a save file whose last data line
`A 123` has no trailing newline the restored value is `12` — the written
value minus its last character — whereas with the trailing newline the
full value `123` is restored. -/
theorem c10_last_line_truncation :
    restore_pvs envW (chars "A 123") =
      (some true, [REvent.put (chars "A") (RVal.rstr (chars "12"))]) ∧
    restore_pvs envW (chars "A 123\n") =
      (some true, [REvent.put (chars "A") (RVal.rstr (chars "123"))]) :=
  ⟨by decide, by decide⟩
